import Mathlib

/-!
# Verification of the gosync change-aware synchronization engine

This file gives a shallow embedding, in Lean 4, of the algorithmic core of the
gosync repository and proves (or refutes) the frozen claims about it.

Embedded components, each translated from the Go source:

* `Gosync.goMatch` — Go's `path/filepath.Match` glob matcher (Unix separator),
  including its `ErrBadPattern` error behaviour, modelled with `Except Unit`.
* `Gosync.IsPathExcluded` — `pkg/utils.IsPathExcluded`.
* `Gosync.syncDirectory` — `internal/sync.Manager.SyncDirectory`, over an
  in-memory filesystem of files / directories / symlinks keyed by relative
  path.  `os.MkdirAll`, `os.Remove`, `os.Symlink` and `utils.CopyFile` are
  modelled node-locally (symlink following by `os.Create` is out of the tree
  model's scope; umask is not applied to permission bits).
* `Gosync.CalculateBlockChecksum` — `pkg/checksum.Calculator`, parametric in
  the digest function (SHA-256 itself is an external primitive); the read loop
  is fuel-indexed so that its non-termination for `blockSize = 0` is provable.
* `Gosync.processEventsModel` — the `internal/watcher` debounce loop as a
  deterministic timed transition system, and `Gosync.WatcherClose` with Go's
  "close of closed channel" panic modelled as an error.

Strings are `List Char`; bytes are `Nat`; times are `Nat` (milliseconds).
-/

namespace Gosync

/-- Strings of the Go source, modelled as lists of characters. -/
abbrev Str := List Char

/-! ## Go string helpers: `filepath.Base`, `strings.Contains`,
`strings.HasSuffix`, `strings.TrimSuffix` -/

/-- `filepath.Base`: strip trailing separators, then keep everything after the
last separator; empty input gives ".", an all-separator input gives "/". -/
def goBase (path : Str) : Str :=
  if path.isEmpty then ['.']
  else
    let p := (path.reverse.dropWhile (fun c => c == '/')).reverse
    let b := p.foldl (fun acc c => if c == '/' then [] else acc ++ [c]) []
    if b.isEmpty then ['/'] else b

/-- `strings.Contains s sub`: `sub` occurs as a contiguous substring of `s`
(the empty string occurs in every string). -/
def strContains (s sub : Str) : Bool :=
  match s with
  | [] => sub.isEmpty
  | c :: t => sub.isPrefixOf (c :: t) || strContains t sub

/-- `strings.HasSuffix pattern "/"`. -/
def hasSuffixSlash (pat : Str) : Bool :=
  match pat.getLast? with
  | some c => c == '/'
  | none => false

/-- `strings.TrimSuffix pattern "/"`: drop one trailing separator if present. -/
def trimSuffixSlash (pat : Str) : Str :=
  if hasSuffixSlash pat then pat.dropLast else pat

/-! ## `path/filepath.Match` (Unix rules)

The Go matcher splits the pattern into star-prefixed chunks (`scanChunk`),
matches one chunk against the head of the name (`matchChunk`, which keeps
scanning for syntax errors after a failed match), and on a star retries the
chunk at every later non-separator position.  Malformed patterns yield
`ErrBadPattern`, modelled as `.error ()`. -/

/-- Leading `*`s of a chunk: `star` flag plus the remaining pattern. -/
def scanStars : Str → Bool × Str
  | '*' :: rest => (true, (scanStars rest).2)
  | s => (false, s)

/-- The body scan of Go's `scanChunk`: split off one chunk, treating `*`
inside `[...]` as literal and skipping the character after a backslash. -/
def scanBody (inrange : Bool) : Str → Str × Str
  | [] => ([], [])
  | '\\' :: rest =>
    match rest with
    | [] => (['\\'], [])
    | d :: rest2 =>
      let p := scanBody inrange rest2
      ('\\' :: d :: p.1, p.2)
  | '[' :: rest =>
    let p := scanBody true rest
    ('[' :: p.1, p.2)
  | ']' :: rest =>
    let p := scanBody false rest
    (']' :: p.1, p.2)
  | '*' :: rest =>
    if inrange then
      let p := scanBody inrange rest
      ('*' :: p.1, p.2)
    else ([], '*' :: rest)
  | c :: rest =>
    let p := scanBody inrange rest
    (c :: p.1, p.2)

/-- Go's `scanChunk`: `(star, chunk, rest)`. -/
def scanChunk (pattern : Str) : Bool × Str × Str :=
  let sp := scanStars pattern
  let p := scanBody false sp.2
  (sp.1, p.1, p.2)

/-- `lo <= r && r <= hi` on characters (Go compares rune values). -/
def chrIn (lo hi r : Char) : Bool :=
  decide (lo ≤ r) && decide (r ≤ hi)

/-- The character-class loop of Go's `matchChunk` with `getEsc` inlined,
fuel-indexed (each step consumes part of the chunk, so `chunk.length + 1`
fuel always suffices): parse `lo` (or `lo-hi`) ranges until the closing `]`,
accumulating whether `r` fell in some range; any malformed class is
`ErrBadPattern`. -/
def matchRangesF : Nat → Char → Bool → Nat → Str → Except Unit (Bool × Str)
  | 0, _, _, _, _ => .error ()
  | _ + 1, _, _, _, [] => .error ()
  | _ + 1, _, mtch, nrange, ']' :: rest =>
    if nrange > 0 then .ok (mtch, rest) else .error ()
  | _ + 1, _, _, _, '-' :: _ => .error ()
  | fuel + 1, r, mtch, nrange, '\\' :: rest =>
    match rest with
    | [] => .error ()
    | lo :: rest2 =>
      match rest2 with
      | [] => .error ()
      | '-' :: rest3 =>
        match rest3 with
        | [] => .error ()
        | '-' :: _ => .error ()
        | ']' :: _ => .error ()
        | '\\' :: rest4 =>
          match rest4 with
          | [] => .error ()
          | hi :: rest5 =>
            if rest5.isEmpty then .error ()
            else matchRangesF fuel r (mtch || chrIn lo hi r) (nrange + 1) rest5
        | hi :: rest4 =>
          if rest4.isEmpty then .error ()
          else matchRangesF fuel r (mtch || chrIn lo hi r) (nrange + 1) rest4
      | _ => matchRangesF fuel r (mtch || chrIn lo lo r) (nrange + 1) rest2
  | fuel + 1, r, mtch, nrange, lo :: rest =>
    match rest with
    | [] => .error ()
    | '-' :: rest3 =>
      match rest3 with
      | [] => .error ()
      | '-' :: _ => .error ()
      | ']' :: _ => .error ()
      | '\\' :: rest4 =>
        match rest4 with
        | [] => .error ()
        | hi :: rest5 =>
          if rest5.isEmpty then .error ()
          else matchRangesF fuel r (mtch || chrIn lo hi r) (nrange + 1) rest5
      | hi :: rest4 =>
        if rest4.isEmpty then .error ()
        else matchRangesF fuel r (mtch || chrIn lo hi r) (nrange + 1) rest4
    | _ => matchRangesF fuel r (mtch || chrIn lo lo r) (nrange + 1) rest

/-- Go's `matchChunk`, fuel-indexed (the chunk shrinks at every step, so
`chunk.length + 1` fuel always suffices): match a chunk against the head of
`s`, returning the unmatched tail and whether it matched; after a failure it
keeps parsing the chunk so syntax errors are still reported. -/
def matchChunkF : Nat → Bool → Str → Str → Except Unit (Str × Bool)
  | 0, _, _, _ => .error ()
  | _ + 1, failed, [], s => if failed then .ok ([], false) else .ok (s, true)
  | fuel + 1, failed0, c :: ch, s =>
    let failed := failed0 || s.isEmpty
    if c == '[' then
      let r := if failed then Char.ofNat 0 else s.headD (Char.ofNat 0)
      let s1 := if failed then s else s.tail
      let neg := match ch with
        | '^' :: chtl => (true, chtl)
        | _ => (false, ch)
      match matchRangesF (neg.2.length + 1) r false 0 neg.2 with
      | .error e => .error e
      | .ok (m, ch2) => matchChunkF fuel (failed || (m == neg.1)) ch2 s1
    else if c == '?' then
      if failed then matchChunkF fuel failed ch s
      else if s.headD (Char.ofNat 0) == '/' then matchChunkF fuel true ch s.tail
      else matchChunkF fuel failed ch s.tail
    else if c == '\\' then
      match ch with
      | [] => .error ()
      | d :: ch2 =>
        if failed then matchChunkF fuel failed ch2 s
        else if s.headD (Char.ofNat 0) == d then matchChunkF fuel failed ch2 s.tail
        else matchChunkF fuel true ch2 s.tail
    else
      if failed then matchChunkF fuel failed ch s
      else if s.headD (Char.ofNat 0) == c then matchChunkF fuel failed ch s.tail
      else matchChunkF fuel true ch s.tail

/-- Go's `matchChunk` at its always-sufficient fuel. -/
def matchChunk (chunk s : Str) : Except Unit (Str × Bool) :=
  matchChunkF (chunk.length + 1) false chunk s

/-- The trailing syntax-validation loop of Go's `Match`: before returning a
plain `false`, every remaining chunk is checked against the empty string so a
malformed tail still raises `ErrBadPattern`.  Fuel-indexed; the pattern
shrinks each step. -/
def checkRemainderF : Nat → Str → Except Unit Bool
  | 0, _ => .error ()
  | _ + 1, [] => .ok false
  | fuel + 1, pat =>
    let sc := scanChunk pat
    match matchChunk sc.2.1 [] with
    | .error e => .error e
    | .ok _ => checkRemainderF fuel sc.2.2

/-- The trailing syntax-validation loop at its always-sufficient fuel. -/
def checkRemainder (pat : Str) : Except Unit Bool :=
  checkRemainderF (pat.length + 1) pat

mutual

/-- Go's `filepath.Match` main loop, fuel-indexed (each step consumes pattern
or name, so `pattern.length + name.length + 1` fuel always suffices). -/
def goMatchF : Nat → Str → Str → Except Unit Bool
  | 0, _, _ => .error ()
  | _ + 1, [], name => .ok name.isEmpty
  | fuel + 1, pattern, name =>
    let sc := scanChunk pattern
    let star := sc.1
    let chunk := sc.2.1
    let rest := sc.2.2
    if star && chunk.isEmpty then .ok (!(name.contains '/'))
    else
      match matchChunk chunk name with
      | .error e => .error e
      | .ok (t, ok) =>
        if ok && (t.isEmpty || !rest.isEmpty) then goMatchF fuel rest t
        else if star then starLoopF fuel chunk rest name
        else checkRemainder rest

/-- The star retry loop of Go's `Match`: slide the chunk forward one
non-separator character at a time. -/
def starLoopF : Nat → Str → Str → Str → Except Unit Bool
  | 0, _, _, _ => .error ()
  | _ + 1, _, rest, [] => checkRemainder rest
  | fuel + 1, chunk, rest, c :: name =>
    if c == '/' then checkRemainder rest
    else
      match matchChunk chunk name with
      | .error e => .error e
      | .ok (t, ok) =>
        if ok then
          if rest.isEmpty && !t.isEmpty then starLoopF fuel chunk rest name
          else goMatchF fuel rest t
        else starLoopF fuel chunk rest name

end

/-- `filepath.Match pattern name` (Unix separator): `.ok matched` or
`.error ()` for `ErrBadPattern`. -/
def goMatch (pattern name : Str) : Except Unit Bool :=
  goMatchF (pattern.length + name.length + 1) pattern name

/-! ## `pkg/utils.IsPathExcluded` -/

/-- `utils.IsPathExcluded`: for each pattern, first try the glob against the
path's base name (a match error counts as no match), then, for patterns with
a trailing separator, test the trimmed pattern as a substring of the path. -/
def IsPathExcluded (path : Str) (ignorePatterns : List Str) : Bool :=
  match ignorePatterns with
  | [] => false
  | pattern :: rest =>
    let globHit := match goMatch pattern (goBase path) with
      | .ok matched => matched
      | .error _ => false
    if globHit then true
    else if hasSuffixSlash pattern && strContains path (trimSuffixSlash pattern) then true
    else IsPathExcluded path rest

/-! ## In-memory filesystem

Trees are association lists from relative paths (component lists) to nodes.
The source tree is given as the list of entries in the order `filepath.Walk`
visits them; the destination tree is mutated by the per-entry step. -/

/-- A path relative to a root, as a list of components. -/
abbrev Path := List Str

/-- A filesystem node: regular file (bytes and permission bits), directory,
or symbolic link (target string, never resolved). -/
inductive FNode where
  | file (content : List Nat) (perm : Nat)
  | dir (perm : Nat)
  | symlink (target : Str)
deriving DecidableEq, Repr

/-- A filesystem: an association list from relative paths to nodes. -/
abbrev FS := List (Path × FNode)

/-- The node at `p`, if any (first binding wins). -/
def fsLookup (fs : FS) (p : Path) : Option FNode :=
  match fs with
  | [] => none
  | e :: rest => if e.1 = p then some e.2 else fsLookup rest p

/-- Write the node at `p`: replace the first binding in place, or append. -/
def fsInsert (fs : FS) (p : Path) (n : FNode) : FS :=
  match fs with
  | [] => [(p, n)]
  | e :: rest => if e.1 = p then (p, n) :: rest else e :: fsInsert rest p n

/-- Delete every binding at `p`. -/
def fsErase (fs : FS) (p : Path) : FS :=
  fs.filter (fun e => decide (e.1 ≠ p))

/-- Does some binding lie strictly below `p`?  (Used by `os.Remove`, which
refuses to delete a non-empty directory.) -/
def fsHasChild (fs : FS) (p : Path) : Bool :=
  fs.any (fun e => decide (e.1 ≠ p) && p.isPrefixOf e.1)

/-- Errors surfaced by the sync walk (the walk aborts at the first one). -/
inductive SyncError where
  | patternError
  | mkdirConflict (p : Path)
  | createConflict (p : Path)
  | symlinkConflict (p : Path)
deriving DecidableEq, Repr

/-- `os.MkdirAll` component walk: ensure each prefix of the path exists as a
directory, creating missing ones with `perm`; an existing non-directory is an
error. -/
def mkdirAllAux (perm : Nat) : FS → Path → List Str → Except SyncError FS
  | fs, _, [] => .ok fs
  | fs, built, c :: rest =>
    let q := built ++ [c]
    match fsLookup fs q with
    | some (.dir _) => mkdirAllAux perm fs q rest
    | none => mkdirAllAux perm (fsInsert fs q (.dir perm)) q rest
    | some _ => .error (.mkdirConflict q)

/-- `os.MkdirAll fs p perm` (umask not modelled). -/
def mkdirAll (fs : FS) (p : Path) (perm : Nat) : Except SyncError FS :=
  mkdirAllAux perm fs [] p

/-- `os.Remove`: delete the node at `p`; error if absent (`ENOENT`) or a
non-empty directory. -/
def fsRemove (fs : FS) (p : Path) : Except Unit FS :=
  match fsLookup fs p with
  | none => .error ()
  | some (.dir _) => if fsHasChild fs p then .error () else .ok (fsErase fs p)
  | some _ => .ok (fsErase fs p)

/-- `os.Symlink target p`: create a symlink node; error (`EEXIST`) if
anything already exists at `p`. -/
def fsSymlink (fs : FS) (target : Str) (p : Path) : Except SyncError FS :=
  match fsLookup fs p with
  | some _ => .error (.symlinkConflict p)
  | none => .ok (fsInsert fs p (.symlink target))

/-- `os.Create` + write (mode `0666`, umask not modelled, and a symlink at
`p` is replaced rather than followed — the tree model is node-local): error
(`EISDIR`) if `p` is a directory. -/
def fsCreate (fs : FS) (p : Path) (content : List Nat) : Except SyncError FS :=
  match fsLookup fs p with
  | some (.dir _) => .error (.createConflict p)
  | _ => .ok (fsInsert fs p (.file content 438))

/-- `utils.CopyFile`: `MkdirAll(Dir(dst), 0755)` then create/truncate the
destination and copy the source bytes verbatim. -/
def copyFile (fs : FS) (p : Path) (content : List Nat) : Except SyncError FS := do
  let fs1 ← mkdirAll fs p.dropLast 493
  fsCreate fs1 p content

/-- `filepath.Rel(source, path)` as a string: "." for the root itself,
otherwise the components joined by the separator. -/
def relStr (p : Path) : Str :=
  if p.isEmpty then ['.'] else List.intercalate ['/'] p

/-- The ignore loop of `SyncDirectory`: try `filepath.Match(pattern,
relativePath)` for each pattern in order; a match error aborts the walk, a
match skips the entry. -/
def checkPatterns : List Str → Str → Except SyncError Bool
  | [], _ => .ok false
  | pat :: rest, rel =>
    match goMatch pat rel with
    | .error _ => .error .patternError
    | .ok true => .ok true
    | .ok false => checkPatterns rest rel

/-- The sizing pass of `SyncDirectory`: sum `info.Size()` over every entry
that is neither a directory nor a symlink (exclusions are not consulted). -/
def totalSize (src : List (Path × FNode)) : Nat :=
  src.foldl
    (fun acc e =>
      match e.2 with
      | .file c _ => acc + c.length
      | _ => acc)
    0

/-- The byte length a file entry contributes (`info.Size()`). -/
def entrySize (n : FNode) : Nat :=
  match n with
  | .file c _ => c.length
  | _ => 0

/-- One iteration of the apply walk of `SyncDirectory` for the entry `e`,
acting on `(destination, bytes transferred so far)`:

* test every ignore pattern against the relative path (abort on a malformed
  pattern, skip the entry on a match);
* directory: `MkdirAll(destPath, mode.Perm())`;
* symlink: `os.Remove(destPath)` with the result discarded, ensure the parent
  directory, recreate the link with the identical target string;
* regular file: ensure the parent directory, then either encrypt (when a
  crypto manager is supplied, modelled as a plaintext-to-ciphertext function,
  written with mode `0644`) or `CopyFile`, and advance progress by the
  source file's size. -/
def syncStep (patterns : List Str) (crypto : Option (List Nat → List Nat))
    (st : FS × Nat) (e : Path × FNode) : Except SyncError (FS × Nat) := do
  let skip ← checkPatterns patterns (relStr e.1)
  if skip then return st
  else
    match e.2 with
    | .dir perm => do
      let d ← mkdirAll st.1 e.1 perm
      return (d, st.2)
    | .symlink target =>
      let d0 := match fsRemove st.1 e.1 with
        | .ok d => d
        | .error _ => st.1
      do
        let d1 ← mkdirAll d0 e.1.dropLast 493
        let d2 ← fsSymlink d1 target e.1
        return (d2, st.2)
    | .file content _ => do
      let d1 ← mkdirAll st.1 e.1.dropLast 493
      match crypto with
      | some enc => do
        let d2 ← (match fsLookup d1 e.1 with
          | some (.dir _) => Except.error (SyncError.createConflict e.1)
          | _ => Except.ok (fsInsert d1 e.1 (.file (enc content) 420)))
        return (d2, st.2 + content.length)
      | none => do
        let d2 ← copyFile d1 e.1 content
        return (d2, st.2 + content.length)

/-- The outcome of one `SyncDirectory` call: the destination tree, the total
seeded into the progress tracker, and the bytes the tracker accumulated. -/
structure SyncResult where
  dest : FS
  total : Nat
  transferred : Nat
deriving DecidableEq, Repr

/-- `sync.Manager.SyncDirectory`: the sizing pass seeds the tracker total,
then the apply walk folds `syncStep` over the source entries in walk order,
aborting at the first error. -/
def syncDirectory (patterns : List Str) (crypto : Option (List Nat → List Nat))
    (src : List (Path × FNode)) (dest : FS) : Except SyncError SyncResult := do
  let st ← src.foldlM (syncStep patterns crypto) (dest, 0)
  return ⟨st.1, totalSize src, st.2⟩

/-! ## `pkg/checksum.Calculator` -/

/-- The checksum calculator; `NewCalculator` stores the block size without
validating it. -/
structure Calculator where
  blockSize : Nat
deriving DecidableEq, Repr

/-- `checksum.NewCalculator`: no validation of `blockSize`. -/
def NewCalculator (blockSize : Nat) : Calculator := ⟨blockSize⟩

/-- The read loop of `CalculateBlockChecksum`, fuel-indexed so that its
behaviour for `blockSize = 0` is expressible: one fuel unit per `file.Read`.
With a zero-length buffer a read returns `(0, nil)` — never `io.EOF` — so the
loop hashes an empty chunk and continues forever (`none` for every fuel).
With `B ≥ 1` a read at EOF returns `io.EOF` and the loop breaks; otherwise it
returns the next `min B remaining` bytes, which are hashed independently and
recorded under the running block index.  `hash` abstracts SHA-256.  -/
def blockLoopF (hash : List Nat → List Nat) (B : Nat) :
    Nat → Nat → List Nat → Option (List (Nat × List Nat))
  | 0, _, _ => none
  | fuel + 1, blockNum, rest =>
    if B == 0 then
      (blockLoopF hash B fuel (blockNum + 1) rest).map
        (fun l => (blockNum, hash []) :: l)
    else if rest.isEmpty then some []
    else
      (blockLoopF hash B fuel (blockNum + 1) (rest.drop B)).map
        (fun l => (blockNum, hash (rest.take B)) :: l)

/-- `Calculator.CalculateBlockChecksum` over in-memory file contents, with
fuel `content.length + 1` (sufficient whenever the calculator's block size is
at least 1; `none` models the infinite loop of block size 0). -/
def CalculateBlockChecksum (hash : List Nat → List Nat) (c : Calculator)
    (content : List Nat) : Option (List (Nat × List Nat)) :=
  blockLoopF hash c.blockSize (content.length + 1) 0 content

/-! ## `internal/watcher`

The debounce loop `processEvents` is modelled as a deterministic transition
system over a time-ordered list of raw notifications.  State: the pending
path-to-event map and the debounce timer deadline.  A raw notification
upserts the map (keeping only the latest event per path, timestamped at its
arrival) and resets the timer to `arrival + debounceMs`; when the deadline
precedes the next arrival the timer fires, emitting every pending event and
clearing the map.  A deadline equal to the next arrival time is a race in
Go's `select`; the model lets the notification win, which is exercised by no
theorem below (burst gaps are strictly below the debounce window). -/

/-- An emitted change event (`watcher.FileEvent`). -/
structure FileEvent where
  path : Str
  op : Str
  time : Nat
deriving DecidableEq, Repr

/-- A raw `fsnotify` notification with its arrival time. -/
structure RawEvent where
  name : Str
  op : Str
  time : Nat
deriving DecidableEq, Repr

/-- `eventMap[event.Name] = ...`: replace the pending event for the path, or
add one. -/
def upsertEvent (m : List (Str × FileEvent)) (k : Str) (v : FileEvent) :
    List (Str × FileEvent) :=
  match m with
  | [] => [(k, v)]
  | e :: rest => if e.1 = k then (k, v) :: rest else e :: upsertEvent rest k v

/-- The coalescing loop: each step consumes a raw notification or fires the
timer (fuel `2 * raws.length + 2` always suffices); the result pairs each
emitted event with its emission time. -/
def runLoopF (d : Nat) : Nat → List RawEvent → List (Str × FileEvent) →
    Option Nat → Option (List (Nat × FileEvent))
  | 0, _, _, _ => none
  | _ + 1, [], _, none => some []
  | fuel + 1, [], pending, some tf =>
    (runLoopF d fuel [] [] none).map
      (fun out => pending.map (fun ev => (tf, ev.2)) ++ out)
  | fuel + 1, e :: rest, pending, none =>
    runLoopF d fuel rest (upsertEvent pending e.name ⟨e.name, e.op, e.time⟩)
      (some (e.time + d))
  | fuel + 1, e :: rest, pending, some tf =>
    if tf < e.time then
      (runLoopF d fuel (e :: rest) [] none).map
        (fun out => pending.map (fun ev => (tf, ev.2)) ++ out)
    else
      runLoopF d fuel rest (upsertEvent pending e.name ⟨e.name, e.op, e.time⟩)
        (some (e.time + d))

/-- `Watcher.processEvents` with debounce `d` on a time-ordered notification
list, starting with an empty pending map and a stopped timer. -/
def processEventsModel (d : Nat) (raws : List RawEvent) :
    Option (List (Nat × FileEvent)) :=
  runLoopF d (2 * raws.length + 2) raws [] none

/-- A Go channel reduced to its closed flag. -/
structure GoChan where
  closed : Bool
deriving DecidableEq, Repr

/-- `close(ch)`: marks the channel closed, and panics (modelled as
`.error ()`) when the channel is already closed. -/
def closeChan (c : GoChan) : Except Unit GoChan :=
  if c.closed then .error () else .ok ⟨true⟩

/-- The watcher state that `Close` touches: the `done` channel and whether
the fsnotify watcher was closed. -/
structure WatcherState where
  done : GoChan
  fsnotifyClosed : Bool
deriving DecidableEq, Repr

/-- A freshly constructed watcher (`NewWatcher`): `done` open. -/
def NewWatcherState : WatcherState := ⟨⟨false⟩, false⟩

/-- `Watcher.Close`: unconditionally `close(w.done)` — propagating the panic
of a double close — then close the fsnotify watcher. -/
def WatcherClose (w : WatcherState) : Except Unit WatcherState :=
  match closeChan w.done with
  | .error e => .error e
  | .ok done2 => .ok ⟨done2, true⟩

/-! ## Invariants used by the idempotence development (C1)

`filepath.Walk` produces entry lists whose paths are distinct and where an
entry strictly below another lies below a directory (the walk lists every
directory it descends into and never descends into files or symlinks);
`WalkConsistent` captures exactly that.  `applied` says the destination
already reflects an entry, and `FsEq` is extensional equality of trees
(same node at every path — "byte-for-byte identical"). -/

/-- The node is a directory. -/
def isDirNode : FNode → Prop
  | .dir _ => True
  | _ => False

/-- Extensional equality of filesystems: the same node at every path. -/
def FsEq (d1 d2 : FS) : Prop := ∀ q, fsLookup d1 q = fsLookup d2 q

/-- Every (nonempty) proper ancestor of `p` — i.e. every nonempty prefix of
`p.dropLast` — is a directory in `d`. -/
def ancestorsDirs (d : FS) (p : Path) : Prop :=
  ∀ q, q ≠ [] → q <+: p.dropLast → ∃ π, fsLookup d q = some (.dir π)

/-- The destination node an applied entry leaves behind: a directory for a
directory entry (the root is implicit), the copied file bytes with
`os.Create`'s `0666` mode for a file, the identical target for a symlink. -/
def nodeApplied (d : FS) (e : Path × FNode) : Prop :=
  match e.2 with
  | .dir _ => e.1 = [] ∨ ∃ π, fsLookup d e.1 = some (.dir π)
  | .file c _ => fsLookup d e.1 = some (.file c 438)
  | .symlink t => fsLookup d e.1 = some (.symlink t)

/-- The destination already reflects the entry: either the entry is skipped
by the ignore patterns, or its ancestors are directories and its node is in
place. -/
def applied (patterns : List Str) (d : FS) (e : Path × FNode) : Prop :=
  checkPatterns patterns (relStr e.1) = .ok true ∨
  (checkPatterns patterns (relStr e.1) = .ok false ∧
    ancestorsDirs d e.1 ∧ nodeApplied d e)

/-- The bytes one entry adds to the progress tracker: its size when it is a
regular file that is not skipped, zero otherwise. -/
def entryBytes (patterns : List Str) (e : Path × FNode) : Nat :=
  match checkPatterns patterns (relStr e.1) with
  | .ok false => entrySize e.2
  | _ => 0

/-- Well-formedness of a walk-produced entry list: paths are pairwise
distinct and an entry whose path lies strictly below another entry's path
lies below a directory entry. -/
def WalkConsistent (src : List (Path × FNode)) : Prop :=
  src.Pairwise (fun e f => e.1 ≠ f.1 ∧
    (e.1 <+: f.1 → isDirNode e.2) ∧ (f.1 <+: e.1 → isDirNode f.2))

/-! ## Basic lemmas about the filesystem operations -/

/-- Looking up the key just written finds the written node. -/
theorem fsLookup_fsInsert_self (fs : FS) (p : Path) (n : FNode) :
    fsLookup (fsInsert fs p n) p = some n := by
  induction fs with
  | nil => simp [fsInsert, fsLookup]
  | cons e rest ih =>
    by_cases h : e.1 = p
    · simp [fsInsert, h, fsLookup]
    · simp [fsInsert, h, fsLookup, ih]

/-- Looking up another key is unaffected by a write. -/
theorem fsLookup_fsInsert_other (fs : FS) (p q : Path) (n : FNode) (hpq : q ≠ p) :
    fsLookup (fsInsert fs p n) q = fsLookup fs q := by
  induction fs with
  | nil => simp [fsInsert, fsLookup, Ne.symm hpq]
  | cons e rest ih =>
    by_cases h : e.1 = p
    · simp [fsInsert, h, fsLookup, Ne.symm hpq]
    · simp only [fsInsert, h, if_false, fsLookup, ih]

/-- Erasure removes the key. -/
theorem fsLookup_fsErase_self (fs : FS) (p : Path) :
    fsLookup (fsErase fs p) p = none := by
  induction fs with
  | nil => simp [fsErase, fsLookup]
  | cons e rest ih =>
    by_cases h : e.1 = p
    · simpa [fsErase, h] using ih
    · simpa [fsErase, List.filter, h, fsLookup] using ih

/-- Erasure keeps every other key. -/
theorem fsLookup_fsErase_other (fs : FS) (p q : Path) (hpq : q ≠ p) :
    fsLookup (fsErase fs p) q = fsLookup fs q := by
  induction fs with
  | nil => rfl
  | cons e rest ih =>
    by_cases h : e.1 = p
    · have he : fsErase (e :: rest) p = fsErase rest p := by
        simp [fsErase, List.filter, h]
      have hne : ¬ e.1 = q := by
        rw [h]; exact fun hh => hpq hh.symm
      rw [he, ih, fsLookup]
      simp [hne]
    · have he : fsErase (e :: rest) p = e :: fsErase rest p := by
        simp [fsErase, List.filter, h]
      rw [he, fsLookup, fsLookup]
      by_cases hq : e.1 = q <;> simp [hq, ih]

/-- The sizing fold equals the sum of the file entries' sizes. -/
theorem totalSize_eq_sum (src : List (Path × FNode)) :
    totalSize src = (src.map (fun e => entrySize e.2)).sum := by
  suffices h : ∀ acc, src.foldl
      (fun acc e =>
        match e.2 with
        | .file c _ => acc + c.length
        | _ => acc)
      acc = acc + (src.map (fun e => entrySize e.2)).sum by
    simpa [totalSize] using h 0
  induction src with
  | nil => simp
  | cons e rest ih =>
    intro acc
    cases hn : e.2 <;> simp [List.foldl, hn, ih, entrySize, Nat.add_assoc]

/-- Re-writing the node already present leaves the tree unchanged. -/
theorem fsInsert_self (fs : FS) (p : Path) (v : FNode)
    (h : fsLookup fs p = some v) : fsInsert fs p v = fs := by
  induction fs with
  | nil => cases h
  | cons e rest ih =>
    by_cases he : e.1 = p
    · rw [fsLookup] at h
      rw [if_pos he] at h
      rw [fsInsert, if_pos he]
      cases h
      rw [← he]
    · rw [fsLookup] at h
      rw [if_neg he] at h
      rw [fsInsert, if_neg he, ih h]

/-- A nonempty prefix of `p.dropLast` is never `p` itself. -/
theorem ne_of_prefix_dropLast {q p : Path} (hq : q <+: p.dropLast)
    (hne : q ≠ []) : q ≠ p := by
  intro heq
  subst heq
  have h1 := hq.length_le
  rw [List.length_dropLast] at h1
  have h2 : 1 ≤ q.length := by
    cases q with
    | nil => exact absurd rfl hne
    | cons a t => simp
  omega

/-- A proper prefix of `p` is a prefix of `p.dropLast`. -/
theorem prefix_dropLast_of_proper {q p : Path} (h : q <+: p) (hne : q ≠ p) :
    q <+: p.dropLast := by
  obtain ⟨t, ht⟩ := h
  cases t with
  | nil =>
    rw [List.append_nil] at ht
    exact absurd ht hne
  | cons a t2 =>
    rw [← ht, List.dropLast_append_of_ne_nil q (by simp)]
    exact List.prefix_append q _

/-! ## `os.MkdirAll`: preservation, idempotence, creation -/

/-- `MkdirAll` never changes an existing binding: it only fills absent
paths. -/
theorem mkdirAllAux_keeps (perm : Nat) :
    ∀ (rest : List Str) (fs : FS) (built : Path) (fs' : FS),
      mkdirAllAux perm fs built rest = .ok fs' →
      ∀ q v, fsLookup fs q = some v → fsLookup fs' q = some v := by
  intro rest
  induction rest with
  | nil =>
    intro fs built fs' h q v hv
    cases h
    exact hv
  | cons c rest ih =>
    intro fs built fs' h q v hv
    rw [mkdirAllAux] at h
    split at h
    · exact ih fs (built ++ [c]) fs' h q v hv
    · have hq : q ≠ built ++ [c] := by
        intro heq
        rw [heq] at hv
        rename_i hl
        rw [hl] at hv
        cases hv
      refine ih _ (built ++ [c]) fs' h q v ?_
      rw [fsLookup_fsInsert_other fs (built ++ [c]) q (.dir perm) hq]
      exact hv
    · cases h

/-- `MkdirAll` is a no-op when the whole path already consists of
directories. -/
theorem mkdirAllAux_id (perm : Nat) :
    ∀ (rest : List Str) (fs : FS) (built : Path),
      (∀ pre, pre ≠ [] → pre <+: rest →
        ∃ π, fsLookup fs (built ++ pre) = some (.dir π)) →
      mkdirAllAux perm fs built rest = .ok fs := by
  intro rest
  induction rest with
  | nil => intro fs built _; rfl
  | cons c rest ih =>
    intro fs built hdirs
    obtain ⟨π, hπ⟩ := hdirs [c] (by simp) ⟨rest, rfl⟩
    rw [mkdirAllAux, hπ]
    refine ih fs (built ++ [c]) ?_
    intro pre hne hpre
    obtain ⟨t, ht⟩ := hpre
    have := hdirs (c :: pre) (by simp) ⟨t, by rw [List.cons_append, ht]⟩
    rw [show built ++ c :: pre = built ++ [c] ++ pre by simp] at this
    exact this

/-- After a successful `MkdirAll`, every nonempty prefix of the path is a
directory. -/
theorem mkdirAllAux_dirs (perm : Nat) :
    ∀ (rest : List Str) (fs : FS) (built : Path) (fs' : FS),
      mkdirAllAux perm fs built rest = .ok fs' →
      ∀ pre, pre ≠ [] → pre <+: rest →
        ∃ π, fsLookup fs' (built ++ pre) = some (.dir π) := by
  intro rest
  induction rest with
  | nil =>
    intro fs built fs' h pre hne hpre
    exact absurd (List.prefix_nil.mp hpre) hne
  | cons c rest ih =>
    intro fs built fs' h pre hne hpre
    rw [mkdirAllAux] at h
    split at h
    · rename_i π0 hl
      match pre, hne with
      | c2 :: pre2, _ =>
        obtain ⟨hc2, hpre2⟩ := List.cons_prefix_cons.mp hpre
        subst hc2
        cases pre2 with
        | nil =>
          refine ⟨π0, ?_⟩
          have hkeep := mkdirAllAux_keeps perm rest fs (built ++ [c2]) fs' h _ _ hl
          simpa using hkeep
        | cons c3 pre3 =>
          have := ih fs (built ++ [c2]) fs' h (c3 :: pre3) (by simp) hpre2
          rw [show built ++ [c2] ++ (c3 :: pre3) = built ++ c2 :: c3 :: pre3
            by simp] at this
          exact this
    · rename_i hl
      match pre, hne with
      | c2 :: pre2, _ =>
        obtain ⟨hc2, hpre2⟩ := List.cons_prefix_cons.mp hpre
        subst hc2
        cases pre2 with
        | nil =>
          refine ⟨perm, ?_⟩
          have hins : fsLookup (fsInsert fs (built ++ [c2]) (.dir perm))
              (built ++ [c2]) = some (.dir perm) :=
            fsLookup_fsInsert_self fs (built ++ [c2]) (.dir perm)
          have := mkdirAllAux_keeps perm rest _ (built ++ [c2]) fs' h _ _ hins
          simpa using this
        | cons c3 pre3 =>
          have := ih _ (built ++ [c2]) fs' h (c3 :: pre3) (by simp) hpre2
          rw [show built ++ [c2] ++ (c3 :: pre3) = built ++ c2 :: c3 :: pre3
            by simp] at this
          exact this
    · cases h

/-- `mkdirAllAux_keeps` at the top level. -/
theorem mkdirAll_keeps {fs fs' : FS} {p : Path} {perm : Nat}
    (h : mkdirAll fs p perm = .ok fs') :
    ∀ q v, fsLookup fs q = some v → fsLookup fs' q = some v :=
  mkdirAllAux_keeps perm p fs [] fs' h

/-- `mkdirAllAux_id` at the top level. -/
theorem mkdirAll_id {fs : FS} {p : Path} {perm : Nat}
    (hdirs : ∀ q, q ≠ [] → q <+: p → ∃ π, fsLookup fs q = some (.dir π)) :
    mkdirAll fs p perm = .ok fs := by
  refine mkdirAllAux_id perm p fs [] ?_
  intro pre hne hpre
  simpa using hdirs pre hne hpre

/-- `mkdirAllAux_dirs` at the top level. -/
theorem mkdirAll_dirs {fs fs' : FS} {p : Path} {perm : Nat}
    (h : mkdirAll fs p perm = .ok fs') :
    ∀ q, q ≠ [] → q <+: p → ∃ π, fsLookup fs' q = some (.dir π) := by
  intro q hne hq
  have := mkdirAllAux_dirs perm p fs [] fs' h q hne hq
  simpa using this

/-- `Except.bind` on a success. -/
theorem ok_bind {ε α β : Type} (a : α) (f : α → Except ε β) :
    (Except.ok a >>= f) = f a := rfl

/-- `Except.bind` on an error. -/
theorem error_bind {ε α β : Type} (er : ε) (f : α → Except ε β) :
    ((Except.error er : Except ε α) >>= f) = .error er := rfl

/-! ## Dissecting one apply-walk step (no encryption) -/

/-- A successful `syncStep` with no crypto manager is a skip, a `MkdirAll`,
a remove-and-relink, or a parent-`MkdirAll`-and-copy, according to the
pattern check and entry kind. -/
theorem syncStep_ok_cases (patterns : List Str) (d : FS) (n : Nat)
    (e : Path × FNode) (d' : FS) (n' : Nat)
    (h : syncStep patterns none (d, n) e = .ok (d', n')) :
    (checkPatterns patterns (relStr e.1) = .ok true ∧ d' = d ∧ n' = n) ∨
    (checkPatterns patterns (relStr e.1) = .ok false ∧
      ((∃ perm, e.2 = .dir perm ∧ mkdirAll d e.1 perm = .ok d' ∧ n' = n) ∨
        (∃ t d1, e.2 = .symlink t ∧
          mkdirAll (match fsRemove d e.1 with
            | .ok x => x
            | .error _ => d) e.1.dropLast 493 = .ok d1 ∧
          fsLookup d1 e.1 = none ∧
          d' = fsInsert d1 e.1 (.symlink t) ∧ n' = n) ∨
        (∃ c perm d1 d2, e.2 = .file c perm ∧
          mkdirAll d e.1.dropLast 493 = .ok d1 ∧
          mkdirAll d1 e.1.dropLast 493 = .ok d2 ∧
          d' = fsInsert d2 e.1 (.file c 438) ∧ n' = n + c.length))) := by
  rw [syncStep] at h
  cases hc : checkPatterns patterns (relStr e.1) with
  | error er =>
    rw [hc, error_bind] at h
    cases h
  | ok b =>
    rw [hc, ok_bind] at h
    cases b with
    | true =>
      simp only [if_true, pure, Except.pure, Except.ok.injEq, Prod.mk.injEq] at h
      exact Or.inl ⟨rfl, h.1.symm, h.2.symm⟩
    | false =>
      simp only [Bool.false_eq_true, if_false] at h
      refine Or.inr ⟨rfl, ?_⟩
      split at h
      · rename_i perm heq
        cases hm : mkdirAll d e.1 perm with
        | error er =>
          rw [hm, error_bind] at h
          cases h
        | ok dd =>
          rw [hm, ok_bind] at h
          simp only [pure, Except.pure, Except.ok.injEq, Prod.mk.injEq] at h
          exact Or.inl ⟨perm, heq, h.1 ▸ hm, h.2.symm⟩
      · rename_i t heq
        cases hm1 : mkdirAll (match fsRemove d e.1 with
            | .ok x => x
            | .error _ => d) e.1.dropLast 493 with
        | error er =>
          rw [hm1, error_bind] at h
          cases h
        | ok d1 =>
          rw [hm1, ok_bind] at h
          rw [fsSymlink] at h
          split at h
          · rw [error_bind] at h
            cases h
          · rename_i hl
            rw [ok_bind] at h
            simp only [pure, Except.pure, Except.ok.injEq, Prod.mk.injEq] at h
            exact Or.inr (Or.inl ⟨t, d1, heq, rfl, hl, h.1.symm, h.2.symm⟩)
      · rename_i c perm heq
        cases hm1 : mkdirAll d e.1.dropLast 493 with
        | error er =>
          rw [hm1, error_bind] at h
          cases h
        | ok d1 =>
          rw [hm1, ok_bind] at h
          rw [copyFile] at h
          cases hm2 : mkdirAll d1 e.1.dropLast 493 with
          | error er =>
            rw [hm2, error_bind] at h
            cases h
          | ok d2 =>
            rw [hm2, ok_bind] at h
            rw [fsCreate] at h
            split at h
            · rw [error_bind] at h
              cases h
            · rw [ok_bind] at h
              simp only [pure, Except.pure, Except.ok.injEq, Prod.mk.injEq] at h
              exact Or.inr (Or.inr ⟨c, perm, d1, d2, heq, rfl, hm2,
                h.1.symm, h.2.symm⟩)

/-- A successful step advances the tracker by exactly the entry's
contribution. -/
theorem syncStep_bytes (patterns : List Str) (d : FS) (n : Nat)
    (e : Path × FNode) (d' : FS) (n' : Nat)
    (h : syncStep patterns none (d, n) e = .ok (d', n')) :
    n' = n + entryBytes patterns e := by
  rcases syncStep_ok_cases patterns d n e d' n' h with ⟨hc, -, hn⟩ | ⟨hc, hcase⟩
  · have hb : entryBytes patterns e = 0 := by simp [entryBytes, hc]
    rw [hn, hb]
    omega
  · have hb : entryBytes patterns e = entrySize e.2 := by simp [entryBytes, hc]
    rcases hcase with ⟨perm, heq, -, hn⟩ | ⟨t, d1, heq, -, -, -, hn⟩ |
      ⟨c, perm, d1, d2, heq, -, -, -, hn⟩
    · rw [hn, hb]
      simp [entrySize, heq]
    · rw [hn, hb]
      simp [entrySize, heq]
    · rw [hn, hb, heq]
      simp [entrySize]

/-- A successful `os.Remove` only deletes its own path. -/
theorem fsRemove_ok_lookup_other {d x : FS} {p q : Path}
    (hr : fsRemove d p = .ok x) (hq : q ≠ p) :
    fsLookup x q = fsLookup d q := by
  rw [fsRemove] at hr
  split at hr
  · cases hr
  · split at hr
    · cases hr
    · cases hr
      exact fsLookup_fsErase_other d p q hq
  · cases hr
    exact fsLookup_fsErase_other d p q hq

/-- A successful step keeps every binding at a path other than the entry's
own, and — when the entry is a directory — every binding outright. -/
theorem syncStep_preserves_other (patterns : List Str) (d : FS) (n : Nat)
    (f : Path × FNode) (d' : FS) (n' : Nat)
    (h : syncStep patterns none (d, n) f = .ok (d', n')) :
    (∀ q v, q ≠ f.1 → fsLookup d q = some v → fsLookup d' q = some v) ∧
    (isDirNode f.2 → ∀ q v, fsLookup d q = some v → fsLookup d' q = some v) := by
  rcases syncStep_ok_cases patterns d n f d' n' h with ⟨-, rfl, -⟩ | ⟨-, hcase⟩
  · exact ⟨fun q v _ hv => hv, fun _ q v hv => hv⟩
  rcases hcase with ⟨perm, heq, hm, -⟩ | ⟨t, d1, heq, hm1, hl, rfl, -⟩ |
    ⟨c, perm, d1, d2, heq, hm1, hm2, rfl, -⟩
  · exact ⟨fun q v _ hv => mkdirAll_keeps hm q v hv,
      fun _ q v hv => mkdirAll_keeps hm q v hv⟩
  · constructor
    · intro q v hq hv
      have hv0 : fsLookup (match fsRemove d f.1 with
          | .ok x => x
          | .error _ => d) q = some v := by
        cases hr : fsRemove d f.1 with
        | ok x =>
          rw [fsRemove_ok_lookup_other hr hq]
          exact hv
        | error u => exact hv
      have h1 := mkdirAll_keeps hm1 q v hv0
      rw [fsLookup_fsInsert_other d1 f.1 q _ hq]
      exact h1
    · intro hdir
      rw [heq] at hdir
      simp [isDirNode] at hdir
  · constructor
    · intro q v hq hv
      have h1 := mkdirAll_keeps hm1 q v hv
      have h2 := mkdirAll_keeps hm2 q v h1
      rw [fsLookup_fsInsert_other d2 f.1 q _ hq]
      exact h2
    · intro hdir
      rw [heq] at hdir
      simp [isDirNode] at hdir

/-- A successful step leaves its own entry applied. -/
theorem syncStep_establishes (patterns : List Str) (d : FS) (n : Nat)
    (f : Path × FNode) (d' : FS) (n' : Nat)
    (h : syncStep patterns none (d, n) f = .ok (d', n')) :
    applied patterns d' f := by
  rcases syncStep_ok_cases patterns d n f d' n' h with ⟨hc, rfl, -⟩ | ⟨hc, hcase⟩
  · exact Or.inl hc
  rcases hcase with ⟨perm, heq, hm, -⟩ | ⟨t, d1, heq, hm1, hl, rfl, -⟩ |
    ⟨c, perm, d1, d2, heq, hm1, hm2, rfl, -⟩
  · refine Or.inr ⟨hc, ?_, ?_⟩
    · intro q hne hq
      exact mkdirAll_dirs hm q hne (hq.trans (List.dropLast_prefix f.1))
    · simp only [nodeApplied, heq]
      by_cases hp : f.1 = []
      · exact Or.inl hp
      · exact Or.inr (mkdirAll_dirs hm f.1 hp (List.prefix_refl f.1))
  · refine Or.inr ⟨hc, ?_, ?_⟩
    · intro q hne hq
      obtain ⟨π, hπ⟩ := mkdirAll_dirs hm1 q hne hq
      refine ⟨π, ?_⟩
      rw [fsLookup_fsInsert_other d1 f.1 q _ (ne_of_prefix_dropLast hq hne)]
      exact hπ
    · simp only [nodeApplied, heq]
      exact fsLookup_fsInsert_self d1 f.1 (.symlink t)
  · refine Or.inr ⟨hc, ?_, ?_⟩
    · intro q hne hq
      obtain ⟨π, hπ⟩ := mkdirAll_dirs hm1 q hne hq
      refine ⟨π, ?_⟩
      rw [fsLookup_fsInsert_other d2 f.1 q _ (ne_of_prefix_dropLast hq hne)]
      exact mkdirAll_keeps hm2 q _ hπ
    · simp only [nodeApplied, heq]
      exact fsLookup_fsInsert_self d2 f.1 (.file c 438)

/-- `applied` only reads the destination through `fsLookup`, so it
transports along extensional equality. -/
theorem applied_congr (patterns : List Str) {d1 d2 : FS} (hfs : FsEq d1 d2)
    (e : Path × FNode) (ha : applied patterns d1 e) : applied patterns d2 e := by
  rcases ha with hc | ⟨hc, hanc, hnode⟩
  · exact Or.inl hc
  refine Or.inr ⟨hc, ?_, ?_⟩
  · intro q hne hq
    obtain ⟨π, hπ⟩ := hanc q hne hq
    exact ⟨π, (hfs q).symm.trans hπ⟩
  · cases hn2 : e.2 with
    | dir perm =>
      simp only [nodeApplied, hn2] at hnode ⊢
      rcases hnode with h0 | ⟨π, hπ⟩
      · exact Or.inl h0
      · exact Or.inr ⟨π, (hfs e.1).symm.trans hπ⟩
    | file c perm =>
      simp only [nodeApplied, hn2] at hnode ⊢
      exact (hfs e.1).symm.trans hnode
    | symlink t =>
      simp only [nodeApplied, hn2] at hnode ⊢
      exact (hfs e.1).symm.trans hnode

/-- Replaying a step whose entry is already applied succeeds, transfers the
same bytes, and leaves the destination extensionally unchanged. -/
theorem syncStep_replay (patterns : List Str) (d : FS) (n : Nat)
    (f : Path × FNode) (ha : applied patterns d f) :
    ∃ d', syncStep patterns none (d, n) f =
        .ok (d', n + entryBytes patterns f) ∧
      FsEq d' d := by
  rcases ha with hc | ⟨hc, hanc, hnode⟩
  · refine ⟨d, ?_, fun q => rfl⟩
    have hb : entryBytes patterns f = 0 := by simp [entryBytes, hc]
    rw [hb, syncStep, hc, ok_bind]
    simp [pure, Except.pure]
  · cases hn2 : f.2 with
    | dir perm =>
      have hb : entryBytes patterns f = 0 := by
        simp [entryBytes, hc, entrySize, hn2]
      have hdirs : ∀ q, q ≠ [] → q <+: f.1 →
          ∃ π, fsLookup d q = some (.dir π) := by
        intro q hne hq
        by_cases hqe : q = f.1
        · subst hqe
          simp only [nodeApplied, hn2] at hnode
          rcases hnode with h0 | hsome
          · exact absurd h0 hne
          · exact hsome
        · exact hanc q hne (prefix_dropLast_of_proper hq hqe)
      have hm : mkdirAll d f.1 perm = .ok d := mkdirAll_id hdirs
      refine ⟨d, ?_, fun q => rfl⟩
      rw [hb, syncStep, hc, ok_bind]
      simp only [Bool.false_eq_true, if_false, hn2]
      rw [hm, ok_bind]
      simp [pure, Except.pure]
    | symlink t =>
      simp only [nodeApplied, hn2] at hnode
      have hb : entryBytes patterns f = 0 := by
        simp [entryBytes, hc, entrySize, hn2]
      have hrm : fsRemove d f.1 = .ok (fsErase d f.1) := by
        rw [fsRemove, hnode]
      have hdirs : ∀ q, q ≠ [] → q <+: f.1.dropLast →
          ∃ π, fsLookup (fsErase d f.1) q = some (.dir π) := by
        intro q hne hq
        obtain ⟨π, hπ⟩ := hanc q hne hq
        refine ⟨π, ?_⟩
        rw [fsLookup_fsErase_other d f.1 q (ne_of_prefix_dropLast hq hne)]
        exact hπ
      have hm : mkdirAll (fsErase d f.1) f.1.dropLast 493 =
          .ok (fsErase d f.1) := mkdirAll_id hdirs
      have hsy : fsSymlink (fsErase d f.1) t f.1 =
          .ok (fsInsert (fsErase d f.1) f.1 (.symlink t)) := by
        rw [fsSymlink, fsLookup_fsErase_self]
      refine ⟨fsInsert (fsErase d f.1) f.1 (.symlink t), ?_, ?_⟩
      · rw [hb, syncStep, hc, ok_bind]
        simp only [Bool.false_eq_true, if_false, hn2, hrm]
        rw [hm, ok_bind, hsy, ok_bind]
        simp [pure, Except.pure]
      · intro q
        by_cases hq : q = f.1
        · subst hq
          rw [fsLookup_fsInsert_self, hnode]
        · rw [fsLookup_fsInsert_other _ f.1 q _ hq,
            fsLookup_fsErase_other d f.1 q hq]
    | file c perm =>
      simp only [nodeApplied, hn2] at hnode
      have hb : entryBytes patterns f = c.length := by
        simp [entryBytes, hc, entrySize, hn2]
      have hm : mkdirAll d f.1.dropLast 493 = .ok d := mkdirAll_id (by
        intro q hne hq
        exact hanc q hne hq)
      have hcr : fsCreate d f.1 c = .ok d := by
        rw [fsCreate, hnode, fsInsert_self d f.1 (.file c 438) hnode]
      have hcp : copyFile d f.1 c = .ok d := by
        rw [copyFile]
        rw [hm, ok_bind, hcr]
      refine ⟨d, ?_, fun q => rfl⟩
      rw [hb, syncStep, hc, ok_bind]
      simp only [Bool.false_eq_true, if_false, hn2]
      rw [hm, ok_bind]
      rw [hcp, ok_bind]
      simp [pure, Except.pure]

/-- Later steps of a walk preserve an already-applied entry, given the
walk-consistency facts relating it to them. -/
theorem run_preserves_applied (patterns : List Str) :
    ∀ (src : List (Path × FNode)) (d : FS) (n : Nat) (d₁ : FS) (n₁ : Nat)
      (f : Path × FNode),
      src.foldlM (syncStep patterns none) (d, n) = .ok (d₁, n₁) →
      applied patterns d f →
      (∀ g ∈ src, g.1 ≠ f.1 ∧ (g.1 <+: f.1 → isDirNode g.2)) →
      applied patterns d₁ f := by
  intro src
  induction src with
  | nil =>
    intro d n d₁ n₁ f h ha _
    rw [List.foldlM_nil] at h
    simp only [pure, Except.pure, Except.ok.injEq, Prod.mk.injEq] at h
    rw [← h.1]
    exact ha
  | cons g rest ih =>
    intro d n d₁ n₁ f h ha hg
    rw [List.foldlM_cons] at h
    cases hs : syncStep patterns none (d, n) g with
    | error er =>
      rw [hs, error_bind] at h
      cases h
    | ok st =>
      rw [hs, ok_bind] at h
      obtain ⟨d', n'⟩ := st
      have hpres := syncStep_preserves_other patterns d n g d' n' hs
      have hcond := hg g (by simp)
      have ha' : applied patterns d' f := by
        rcases ha with hc | ⟨hc, hanc, hnode⟩
        · exact Or.inl hc
        refine Or.inr ⟨hc, ?_, ?_⟩
        · intro q hne hq
          obtain ⟨π, hπ⟩ := hanc q hne hq
          by_cases hqg : q = g.1
          · have hgf : g.1 <+: f.1 := by
              rw [← hqg]
              exact hq.trans (List.dropLast_prefix f.1)
            exact ⟨π, hpres.2 (hcond.2 hgf) q _ hπ⟩
          · exact ⟨π, hpres.1 q _ hqg hπ⟩
        · cases hn2 : f.2 with
          | dir perm =>
            simp only [nodeApplied, hn2] at hnode ⊢
            rcases hnode with h0 | ⟨π, hπ⟩
            · exact Or.inl h0
            · exact Or.inr ⟨π, hpres.1 f.1 _ (Ne.symm hcond.1) hπ⟩
          | file c perm =>
            simp only [nodeApplied, hn2] at hnode ⊢
            exact hpres.1 f.1 _ (Ne.symm hcond.1) hnode
          | symlink t =>
            simp only [nodeApplied, hn2] at hnode ⊢
            exact hpres.1 f.1 _ (Ne.symm hcond.1) hnode
      exact ih d' n' d₁ n₁ f h ha' (fun g2 hg2 => hg g2 (by simp [hg2]))

/-- After a successful apply walk on a walk-consistent source, every entry
is applied in the final destination. -/
theorem run_establishes (patterns : List Str) :
    ∀ (src : List (Path × FNode)) (d : FS) (n : Nat) (d₁ : FS) (n₁ : Nat),
      src.foldlM (syncStep patterns none) (d, n) = .ok (d₁, n₁) →
      WalkConsistent src →
      ∀ e ∈ src, applied patterns d₁ e := by
  intro src
  induction src with
  | nil =>
    intro d n d₁ n₁ h _ e he
    simp at he
  | cons f rest ih =>
    intro d n d₁ n₁ h hwf e he
    rw [List.foldlM_cons] at h
    cases hs : syncStep patterns none (d, n) f with
    | error er =>
      rw [hs, error_bind] at h
      cases h
    | ok st =>
      rw [hs, ok_bind] at h
      obtain ⟨d', n'⟩ := st
      rw [WalkConsistent, List.pairwise_cons] at hwf
      rcases List.mem_cons.mp he with rfl | he2
      · have hest := syncStep_establishes patterns d n e d' n' hs
        exact run_preserves_applied patterns rest d' n' d₁ n₁ e h hest
          (fun g hg => ⟨Ne.symm (hwf.1 g hg).1, (hwf.1 g hg).2.2⟩)
      · exact ih d' n' d₁ n₁ h hwf.2 e he2

/-- A successful apply walk transfers exactly the sum of the entries'
contributions. -/
theorem run_bytes (patterns : List Str) :
    ∀ (src : List (Path × FNode)) (d : FS) (n : Nat) (d₁ : FS) (n₁ : Nat),
      src.foldlM (syncStep patterns none) (d, n) = .ok (d₁, n₁) →
      n₁ = n + (src.map (entryBytes patterns)).sum := by
  intro src
  induction src with
  | nil =>
    intro d n d₁ n₁ h
    rw [List.foldlM_nil] at h
    simp only [pure, Except.pure, Except.ok.injEq, Prod.mk.injEq] at h
    simp [← h.2]
  | cons f rest ih =>
    intro d n d₁ n₁ h
    rw [List.foldlM_cons] at h
    cases hs : syncStep patterns none (d, n) f with
    | error er =>
      rw [hs, error_bind] at h
      cases h
    | ok st =>
      rw [hs, ok_bind] at h
      obtain ⟨d', n'⟩ := st
      have hb := syncStep_bytes patterns d n f d' n' hs
      rw [ih d' n' d₁ n₁ h, hb]
      simp only [List.map_cons, List.sum_cons]
      omega

/-- Replaying a walk whose entries are all applied succeeds, transfers the
same bytes, and leaves the destination extensionally unchanged. -/
theorem run_replay (patterns : List Str) :
    ∀ (src : List (Path × FNode)) (d : FS) (n : Nat),
      (∀ e ∈ src, applied patterns d e) →
      ∃ d', src.foldlM (syncStep patterns none) (d, n) =
          .ok (d', n + (src.map (entryBytes patterns)).sum) ∧
        FsEq d' d := by
  intro src
  induction src with
  | nil =>
    intro d n _
    refine ⟨d, ?_, fun q => rfl⟩
    rw [List.foldlM_nil]
    simp [pure, Except.pure]
  | cons f rest ih =>
    intro d n hall
    obtain ⟨df, hstep, hfs⟩ := syncStep_replay patterns d n f (hall f (by simp))
    obtain ⟨d', hrun, hfs2⟩ := ih df (n + entryBytes patterns f)
      (fun e he =>
        applied_congr patterns (fun q => (hfs q).symm) e (hall e (by simp [he])))
    refine ⟨d', ?_, fun q => (hfs2 q).trans (hfs q)⟩
    rw [List.foldlM_cons, hstep, ok_bind, hrun]
    simp [List.map_cons, List.sum_cons, Nat.add_assoc]

/-! ## C1 (amended): the second run rewrites everything, identically -/

/-- C1 (amended): on a walk-consistent source tree, if `syncDirectory`
succeeds then running it again with no source changes succeeds and leaves
the destination byte-for-byte identical (the same node at every path); but
the second run re-transfers every non-excluded regular file in full —
exactly the same byte count as the first run, namely the sum of the
non-skipped files' sizes, not zero — because no checksum is ever compared
and no re-transfer is ever skipped; progress still advances by each copied
file's size, and the seeded total is unchanged. -/
theorem C1_idempotent_dest_full_retransfer (patterns : List Str)
    (src : List (Path × FNode)) (dest : FS) (r : SyncResult)
    (hwf : WalkConsistent src)
    (h : syncDirectory patterns none src dest = .ok r) :
    ∃ r', syncDirectory patterns none src r.dest = .ok r' ∧
      FsEq r'.dest r.dest ∧
      r'.transferred = r.transferred ∧
      r'.total = r.total ∧
      r.transferred = (src.map (entryBytes patterns)).sum := by
  cases hfold : src.foldlM (syncStep patterns none) (dest, 0) with
  | error er =>
    rw [syncDirectory, hfold] at h
    cases h
  | ok st =>
    obtain ⟨d₁, n₁⟩ := st
    rw [syncDirectory, hfold, ok_bind] at h
    simp only [pure, Except.pure, Except.ok.injEq] at h
    subst h
    have happ := run_establishes patterns src dest 0 d₁ n₁ hfold hwf
    obtain ⟨d₂, hrun2, hfs⟩ := run_replay patterns src d₁ 0 happ
    have hbytes := run_bytes patterns src dest 0 d₁ n₁ hfold
    refine ⟨⟨d₂, totalSize src, 0 + (src.map (entryBytes patterns)).sum⟩,
      ?_, hfs, ?_, rfl, ?_⟩
    · rw [syncDirectory]
      rw [show (SyncResult.mk d₁ (totalSize src) n₁).dest = d₁ from rfl, hrun2,
        ok_bind]
      rfl
    · rw [hbytes]
    · rw [hbytes, Nat.zero_add]

/-- C1, witness for the amended claim: re-syncing the one-file tree into its
own first-run output succeeds, leaves the destination extensionally
unchanged, and transfers 3 bytes again. -/
theorem C1_idempotent_dest_full_retransfer_witness :
    ∃ r', syncDirectory [] none [([ "f".toList ], FNode.file [1, 2, 3] 420)]
        (SyncResult.mk [([ "f".toList ], FNode.file [1, 2, 3] 438)] 3 3).dest =
        .ok r' ∧
      FsEq r'.dest (SyncResult.mk [([ "f".toList ], FNode.file [1, 2, 3] 438)]
        3 3).dest ∧
      r'.transferred =
        (SyncResult.mk [([ "f".toList ], FNode.file [1, 2, 3] 438)] 3
          3).transferred ∧
      r'.total = (SyncResult.mk [([ "f".toList ], FNode.file [1, 2, 3] 438)] 3
        3).total ∧
      (SyncResult.mk [([ "f".toList ], FNode.file [1, 2, 3] 438)] 3
        3).transferred =
        (([([ "f".toList ], FNode.file [1, 2, 3] 420)]).map
          (entryBytes [])).sum :=
  C1_idempotent_dest_full_retransfer []
    [([ "f".toList ], FNode.file [1, 2, 3] 420)] []
    (SyncResult.mk [([ "f".toList ], FNode.file [1, 2, 3] 438)] 3 3)
    (by simp [WalkConsistent]) rfl

/-! ## Counterexamples to the claims the code refutes -/

/-- C1, counterexample: for the one-file tree `{f ↦ [1,2,3]}`, the first run
fills an empty destination and the second run — the destination already
holding an identical file — still transfers 3 bytes, not the claimed zero:
no checksum comparison or skip happens in `SyncDirectory`. -/
theorem C1_second_run_retransfers :
    syncDirectory [] none [([ "f".toList ], .file [1, 2, 3] 420)] [] =
      .ok ⟨[([ "f".toList ], .file [1, 2, 3] 438)], 3, 3⟩ ∧
    syncDirectory [] none [([ "f".toList ], .file [1, 2, 3] 420)]
        [([ "f".toList ], .file [1, 2, 3] 438)] =
      .ok ⟨[([ "f".toList ], .file [1, 2, 3] 438)], 3, 3⟩ ∧
    (3 : Nat) ≠ 0 :=
  ⟨rfl, rfl, by decide⟩

/-- C2, counterexample: `sub/build.tmp` is excluded under the IgnoreMatcher
semantics (`*.tmp` matches its base name), yet `SyncDirectory` — which
glob-matches patterns against the whole relative path, where `*` does not
cross a separator — copies it and transfers its byte. -/
theorem C2_nested_basename_still_copied :
    IsPathExcluded "sub/build.tmp".toList ["*.tmp".toList] = true ∧
    syncDirectory ["*.tmp".toList] none
        [([ "sub".toList ], .dir 493),
         ([ "sub".toList, "build.tmp".toList ], .file [7] 420)] [] =
      .ok ⟨[([ "sub".toList ], .dir 493),
            ([ "sub".toList, "build.tmp".toList ], .file [7] 438)], 1, 1⟩ :=
  ⟨rfl, rfl⟩

/-- C3, counterexample: for path `x.gitty/y` and pattern list `[".git/"]`,
`IsPathExcluded` returns `true` although the pattern neither glob-matches the
base name `y` nor has its trimmed name `.git` as a whole path component —
the code tests `strings.Contains`, a substring check, so `.git` inside the
component `x.gitty` is enough. -/
theorem C3_substring_not_component :
    IsPathExcluded "x.gitty/y".toList [".git/".toList] = true ∧
    goMatch ".git/".toList (goBase "x.gitty/y".toList) = .ok false ∧
    hasSuffixSlash ".git/".toList = true ∧
    ¬ (".git".toList ∈ ("x.gitty/y".toList).splitOn '/') :=
  ⟨rfl, rfl, rfl, by decide⟩

/-- C4, counterexample: the tree holding only the 5-byte file `a.tmp`, with
ignore pattern `*.tmp`, is synced with tracker total 5 — the sizing pass
counts the excluded file (the apply pass then skips it: nothing is copied,
zero bytes are transferred) — whereas the claimed total over non-excluded
regular files is 0. -/
theorem C4_total_counts_excluded :
    syncDirectory ["*.tmp".toList] none
        [([ "a.tmp".toList ], .file [0, 0, 0, 0, 0] 420)] [] =
      .ok ⟨[], 5, 0⟩ ∧
    IsPathExcluded "a.tmp".toList ["*.tmp".toList] = true ∧
    (5 : Nat) ≠ 0 :=
  ⟨rfl, rfl, by decide⟩

/-- C8, counterexample: with the malformed glob `[` in the ignore list,
`SyncDirectory` aborts with an error on the very first entry — the
malformed pattern is fatal to the walk, even though `IsPathExcluded` itself
treats it as non-matching. -/
theorem C8_malformed_pattern_aborts :
    syncDirectory ["[".toList] none [([ "f".toList ], .file [1] 420)] [] =
      .error .patternError ∧
    IsPathExcluded "f".toList ["[".toList] = false :=
  ⟨rfl, rfl⟩

/-! ## Amended exclusion and sizing claims -/

/-- C2 (amended): in `SyncDirectory`, exclusion is decided by glob-matching
each ignore pattern, in order, against the entry's whole relative path (Go
`filepath.Match`, whose `*` does not cross a separator — so a base-name glob
only excludes at the top level); an entry is skipped exactly when some
pattern matches the relative path after every earlier pattern returned a
clean non-match; and a skipped entry leaves the destination and the
transferred byte count unchanged. -/
theorem C2_exclusion_by_relpath_glob (patterns : List Str)
    (crypto : Option (List Nat → List Nat)) (st : FS × Nat) (e : Path × FNode) :
    (checkPatterns patterns (relStr e.1) = .ok true →
      syncStep patterns crypto st e = .ok st) ∧
    (checkPatterns patterns (relStr e.1) = .ok true ↔
      ∃ pre pat post, patterns = pre ++ pat :: post ∧
        goMatch pat (relStr e.1) = .ok true ∧
        ∀ q ∈ pre, goMatch q (relStr e.1) = .ok false) := by
  constructor
  · intro h
    simp [syncStep, h, ok_bind, pure, Except.pure]
  · generalize relStr e.1 = rel
    induction patterns with
    | nil =>
      simp only [checkPatterns]
      constructor
      · intro h
        cases h
      · rintro ⟨pre, pat, post, happ, -, -⟩
        exact absurd happ (by simp)
    | cons pat rest ih =>
      cases hm : goMatch pat rel with
      | error u =>
        simp only [checkPatterns, hm]
        constructor
        · intro h
          cases h
        · rintro ⟨pre, pat2, post, happ, hmatch, hall⟩
          cases pre with
          | nil =>
            simp only [List.nil_append, List.cons.injEq] at happ
            rw [← happ.1] at hmatch
            rw [hmatch] at hm
            cases hm
          | cons q pre2 =>
            simp only [List.cons_append, List.cons.injEq] at happ
            have hq := hall q (by simp)
            rw [← happ.1] at hq
            rw [hq] at hm
            cases hm
      | ok b =>
        cases b with
        | true =>
          simp only [checkPatterns, hm]
          constructor
          · intro _
            exact ⟨[], pat, rest, rfl, hm, by simp⟩
          · intro _
            trivial
        | false =>
          simp only [checkPatterns, hm]
          rw [ih]
          constructor
          · rintro ⟨pre, pat2, post, happ, hmatch, hall⟩
            refine ⟨pat :: pre, pat2, post, by simp [happ], hmatch, ?_⟩
            intro q hq
            rcases List.mem_cons.mp hq with hq | hq
            · rw [hq]; exact hm
            · exact hall q hq
          · rintro ⟨pre, pat2, post, happ, hmatch, hall⟩
            cases pre with
            | nil =>
              simp only [List.nil_append, List.cons.injEq] at happ
              rw [← happ.1] at hmatch
              rw [hmatch] at hm
              simp at hm
            | cons q pre2 =>
              simp only [List.cons_append, List.cons.injEq] at happ
              exact ⟨pre2, pat2, post, happ.2, hmatch,
                fun q2 hq2 => hall q2 (by simp [hq2])⟩

/-- C2, witness for the amended exclusion claim: a top-level `build.tmp` is
skipped by pattern `*.tmp` with nothing written and nothing transferred. -/
theorem C2_exclusion_by_relpath_glob_witness :
    syncStep ["*.tmp".toList] none ([], 0)
      ([ "build.tmp".toList ], FNode.file [1] 420) = .ok ([], 0) :=
  (C2_exclusion_by_relpath_glob ["*.tmp".toList] none ([], 0)
    ([ "build.tmp".toList ], FNode.file [1] 420)).1 rfl

/-- C8 (amended): `IsPathExcluded` is never fatal — a pattern whose glob
check fails with `ErrBadPattern` contributes only its trailing-separator
substring test and otherwise falls through to the remaining patterns — but
`SyncDirectory` does not route exclusion through `IsPathExcluded`: its own
per-entry pattern loop aborts the whole walk with an error as soon as a
malformed pattern is reached. -/
theorem C8_matcher_lenient_sync_fatal :
    (∀ path pat rest, goMatch pat (goBase path) = .error () →
      IsPathExcluded path (pat :: rest) =
        ((hasSuffixSlash pat && strContains path (trimSuffixSlash pat)) ||
          IsPathExcluded path rest)) ∧
    (∀ patterns crypto st e er, checkPatterns patterns (relStr e.1) = .error er →
      syncStep patterns crypto st e = .error er) := by
  constructor
  · intro path pat rest h
    simp only [IsPathExcluded, h]
    cases hs : hasSuffixSlash pat && strContains path (trimSuffixSlash pat) <;> simp [hs]
  · intro patterns crypto st e er h
    simp [syncStep, h, error_bind]

/-- C8, witness: the malformed pattern `[` is non-matching inside
`IsPathExcluded` (the decision for `f` reduces to the remaining patterns),
and a pattern-loop error aborts the step for the entry `f`. -/
theorem C8_matcher_lenient_sync_fatal_witness :
    (IsPathExcluded "f".toList ["[".toList] =
      ((hasSuffixSlash "[".toList &&
        strContains "f".toList (trimSuffixSlash "[".toList)) ||
        IsPathExcluded "f".toList []) ∧
    syncStep ["[".toList] none ([], 0) ([ "f".toList ], FNode.file [1] 420) =
      .error .patternError) :=
  ⟨C8_matcher_lenient_sync_fatal.1 "f".toList "[".toList [] rfl,
    C8_matcher_lenient_sync_fatal.2 ["[".toList] none ([], 0)
      ([ "f".toList ], FNode.file [1] 420) .patternError rfl⟩

/-- C4 (amended): the sizing pass seeds the progress tracker with the sum of
the byte lengths of every entry that is neither a directory nor a symlink —
ignore patterns are not consulted, so excluded files count toward the
total. -/
theorem C4_total_sums_all_files (patterns : List Str)
    (crypto : Option (List Nat → List Nat)) (src : List (Path × FNode))
    (dest : FS) (r : SyncResult)
    (h : syncDirectory patterns crypto src dest = .ok r) :
    r.total = (src.map (fun e => entrySize e.2)).sum := by
  cases hfold : src.foldlM (syncStep patterns crypto) (dest, 0) with
  | error er =>
    rw [syncDirectory, hfold] at h
    cases h
  | ok st =>
    rw [syncDirectory, hfold] at h
    simp only [ok_bind] at h
    cases h
    exact totalSize_eq_sum src

/-- C4, witness for the amended sizing claim: the excluded 5-byte `a.tmp`
still contributes its size to the seeded total. -/
theorem C4_total_sums_all_files_witness :
    (syncDirectory ["*.tmp".toList] none
        [([ "a.tmp".toList ], FNode.file [0, 0, 0, 0, 0] 420)] [] =
      .ok ⟨[], 5, 0⟩) ∧
    (SyncResult.mk [] 5 0).total =
      (([([ "a.tmp".toList ], FNode.file [0, 0, 0, 0, 0] 420)]).map
        (fun e => entrySize e.2)).sum :=
  ⟨rfl, C4_total_sums_all_files ["*.tmp".toList] none
    [([ "a.tmp".toList ], FNode.file [0, 0, 0, 0, 0] 420)] [] ⟨[], 5, 0⟩ rfl⟩

/-! ## C3: the IsPathExcluded decision, characterised -/

/-- `strings.Contains` agrees with the existence of a substring
decomposition. -/
theorem strContains_iff (s sub : Str) :
    strContains s sub = true ↔ ∃ pre post, pre ++ sub ++ post = s := by
  induction s with
  | nil =>
    rw [strContains, List.isEmpty_iff]
    constructor
    · intro h
      exact ⟨[], [], by simp [h]⟩
    · rintro ⟨pre, post, h⟩
      simp only [List.append_eq_nil] at h
      exact h.1.2
  | cons c t ih =>
    rw [strContains, Bool.or_eq_true, ih, List.isPrefixOf_iff_prefix]
    constructor
    · rintro (⟨post, hp⟩ | ⟨pre, post, h⟩)
      · exact ⟨[], post, by simpa using hp⟩
      · exact ⟨c :: pre, post, by simp [h]⟩
    · rintro ⟨pre, post, h⟩
      cases pre with
      | nil => exact Or.inl ⟨post, by simpa using h⟩
      | cons d pre2 =>
        simp only [List.cons_append, List.cons.injEq] at h
        exact Or.inr ⟨pre2, post, h.2⟩

/-- One unfolding of the `IsPathExcluded` loop as a boolean disjunction. -/
theorem IsPathExcluded_cons (p pat : Str) (rest : List Str) :
    IsPathExcluded p (pat :: rest) =
      ((match goMatch pat (goBase p) with
        | .ok m => m
        | .error _ => false) ||
        (hasSuffixSlash pat && strContains p (trimSuffixSlash pat)) ||
        IsPathExcluded p rest) := by
  rw [IsPathExcluded]
  cases goMatch pat (goBase p) with
  | ok b =>
    cases b <;>
      cases h2 : hasSuffixSlash pat && strContains p (trimSuffixSlash pat) <;>
        simp [h2]
  | error u =>
    cases h2 : hasSuffixSlash pat && strContains p (trimSuffixSlash pat) <;>
      simp [h2]

/-- C3 (amended): `IsPathExcluded p ps` is true iff some pattern in `ps`
either (a) glob-matches `p`'s base name without a pattern error, or (b) ends
with a separator and its trimmed name occurs as a **substring** of `p` (not
necessarily a whole path component); the claim's three concrete examples all
hold. -/
theorem C3_excluded_iff_glob_or_substring (p : Str) (ps : List Str) :
    (IsPathExcluded p ps = true ↔
      ∃ pat ∈ ps, goMatch pat (goBase p) = .ok true ∨
        (hasSuffixSlash pat = true ∧
          ∃ pre post, pre ++ trimSuffixSlash pat ++ post = p)) ∧
    IsPathExcluded "build.tmp".toList ["*.tmp".toList] = true ∧
    IsPathExcluded "src/main.go".toList ["*.tmp".toList] = false ∧
    IsPathExcluded "a/.git/x".toList [".git/".toList] = true := by
  refine ⟨?_, rfl, rfl, rfl⟩
  induction ps with
  | nil => simp [IsPathExcluded]
  | cons pat rest ih =>
    rw [IsPathExcluded_cons, Bool.or_eq_true, Bool.or_eq_true, ih]
    constructor
    · rintro ((hg | hs) | hrest)
      · have hmt : goMatch pat (goBase p) = .ok true := by
          revert hg
          cases hm : goMatch pat (goBase p) with
          | ok b => cases b <;> simp
          | error u => simp
        exact ⟨pat, by simp, Or.inl hmt⟩
      · have hs2 : hasSuffixSlash pat = true ∧
            strContains p (trimSuffixSlash pat) = true := by
          simpa using hs
        exact ⟨pat, by simp, Or.inr ⟨hs2.1, (strContains_iff _ _).mp hs2.2⟩⟩
      · rcases hrest with ⟨q, hq, hc⟩
        exact ⟨q, by simp [hq], hc⟩
    · rintro ⟨q, hq, hc⟩
      rcases List.mem_cons.mp hq with rfl | hq2
      · rcases hc with hg | ⟨h1, h2⟩
        · exact Or.inl (Or.inl (by simp [hg]))
        · exact Or.inl (Or.inr (by
            simp [h1, (strContains_iff p (trimSuffixSlash q)).mpr h2]))
      · exact Or.inr ⟨q, hq2, hc⟩

/-! ## C7: symlinks are recreated verbatim -/

/-- C7: for a symlink entry, a successful `SyncDirectory` step transfers no
file bytes and leaves the destination holding, at the entry's mirrored path,
a symlink whose target string is the source's unmodified (any pre-existing
node there was removed or replaced); moreover the step is independent of the
crypto manager — link targets are never opened, checksummed or encrypted.
`os.Remove`'s result is discarded by the code, so a missing destination entry
("not found") never surfaces. -/
theorem C7_symlink_target_verbatim (patterns : List Str)
    (crypto : Option (List Nat → List Nat)) (dest : FS) (n : Nat) (p : Path)
    (target : Str) (d' : FS) (n' : Nat)
    (h : syncStep patterns crypto (dest, n) (p, .symlink target) = .ok (d', n')) :
    n' = n ∧
    (checkPatterns patterns (relStr p) = .ok false →
      fsLookup d' p = some (.symlink target)) ∧
    (∀ c2 : Option (List Nat → List Nat),
      syncStep patterns c2 (dest, n) (p, .symlink target) =
        syncStep patterns crypto (dest, n) (p, .symlink target)) := by
  refine ?_
  cases hc : checkPatterns patterns (relStr p) with
  | error er =>
    rw [syncStep] at h
    rw [hc] at h
    cases h
  | ok b =>
    cases b with
    | true =>
      rw [syncStep] at h
      rw [hc] at h
      simp only [ok_bind, if_true] at h
      cases h
      refine ⟨rfl, ?_, fun c2 => rfl⟩
      intro hfalse
      exact absurd hfalse (by simp)
    | false =>
      rw [syncStep] at h
      rw [hc] at h
      simp only [ok_bind, if_false, Bool.false_eq_true] at h
      cases hm1 : mkdirAll
          (match fsRemove dest p with
            | .ok d => d
            | .error _ => dest) p.dropLast 493 with
      | error er =>
        rw [hm1] at h
        cases h
      | ok d1 =>
        rw [hm1] at h
        simp only [ok_bind] at h
        cases hl : fsLookup d1 p with
        | some node =>
          rw [fsSymlink, hl] at h
          cases h
        | none =>
          rw [fsSymlink, hl] at h
          simp only [ok_bind] at h
          cases h
          exact ⟨rfl, fun _ => fsLookup_fsInsert_self d1 p (.symlink target),
            fun c2 => rfl⟩

/-- C7, witness: syncing the symlink entry `l ↦ "t"` into an empty
destination recreates the link with the identical target and transfers
nothing. -/
theorem C7_symlink_target_verbatim_witness :
    (0 : Nat) = 0 ∧
    (checkPatterns [] (relStr [ "l".toList ]) = .ok false →
      fsLookup [([ "l".toList ], FNode.symlink "t".toList)] [ "l".toList ] =
        some (.symlink "t".toList)) ∧
    (∀ c2 : Option (List Nat → List Nat),
      syncStep [] c2 ([], 0) ([ "l".toList ], .symlink "t".toList) =
        syncStep [] none ([], 0) ([ "l".toList ], .symlink "t".toList)) :=
  C7_symlink_target_verbatim [] none [] 0 [ "l".toList ] "t".toList
    [([ "l".toList ], FNode.symlink "t".toList)] 0 rfl

/-! ## The block-checksum read loop: C5 and C9 -/

/-- Peeling one block off the ceiling-division block count. -/
theorem ceil_div_succ (L B : Nat) (hB : 1 ≤ B) (hL : 1 ≤ L) :
    (L + B - 1) / B = ((L - B) + B - 1) / B + 1 := by
  rcases Nat.lt_or_ge B L with h | h
  · have e1 : L + B - 1 = (L - 1) + B := by omega
    have e2 : (L - B) + B - 1 = L - 1 := by omega
    rw [e1, e2, Nat.add_div_right _ (show 0 < B by omega)]
  · have e1 : L + B - 1 = (L - 1) + B := by omega
    have e2 : (L - B) + B - 1 = B - 1 := by omega
    rw [e1, e2, Nat.add_div_right _ (show 0 < B by omega),
      Nat.div_eq_of_lt (show L - 1 < B by omega),
      Nat.div_eq_of_lt (show B - 1 < B by omega)]

/-- A zero block size never reaches `io.EOF`: the loop runs forever. -/
theorem blockLoopF_zero (hash : List Nat → List Nat) :
    ∀ (fuel start : Nat) (rest : List Nat),
      blockLoopF hash 0 fuel start rest = none := by
  intro fuel
  induction fuel with
  | zero => intro start rest; rfl
  | succ f ih =>
    intro start rest
    simp [blockLoopF, ih]

/-- The block count is at most the byte count (each block holds at least one
byte). -/
theorem ceil_div_le_self (L B : Nat) (hB : 1 ≤ B) : (L + B - 1) / B ≤ L := by
  rcases Nat.eq_zero_or_pos L with h0 | h0
  · rw [h0, Nat.div_eq_of_lt (show 0 + B - 1 < B by omega)]
  · have e1 : L + B - 1 = (L - 1) + B := by omega
    rw [e1, Nat.add_div_right _ (show 0 < B by omega)]
    have := Nat.div_le_self (L - 1) B
    omega

/-- With a positive block size, `(rest.length + B - 1) / B + 1` reads —
one per block plus the final `io.EOF` read — return the blocks. -/
theorem blockLoopF_pos (hash : List Nat → List Nat) (B : Nat) (hB : 1 ≤ B) :
    ∀ (fuel : Nat) (rest : List Nat) (start : Nat),
      (rest.length + B - 1) / B < fuel →
      blockLoopF hash B fuel start rest =
        some ((List.range ((rest.length + B - 1) / B)).map
          (fun i => (start + i, hash ((rest.drop (i * B)).take B)))) := by
  have hB0 : (B == 0) = false := by simp; omega
  intro fuel
  induction fuel with
  | zero =>
    intro rest start h
    exact absurd h (Nat.not_lt_zero _)
  | succ f ih =>
    intro rest start h
    match rest with
    | [] =>
      rw [blockLoopF, hB0]
      simp only [List.length_nil]
      rw [show ((0 : Nat) + B - 1) / B = 0 from
        Nat.div_eq_of_lt (show 0 + B - 1 < B by omega)]
      rfl
    | c :: t =>
      have hL : 1 ≤ (c :: t).length := by simp
      have hceil : ((c :: t).length + B - 1) / B =
          (((c :: t).length - B) + B - 1) / B + 1 := ceil_div_succ _ B hB hL
      have hlt : (((c :: t).drop B).length + B - 1) / B < f := by
        rw [List.length_drop]
        rw [hceil] at h
        omega
      rw [blockLoopF, hB0]
      rw [if_neg (show ¬ false = true by simp)]
      rw [if_neg (show ¬ (c :: t).isEmpty = true by simp)]
      rw [ih ((c :: t).drop B) (start + 1) hlt]
      rw [List.length_drop, hceil, List.range_succ_eq_map]
      simp only [Option.map, List.map_cons, List.map_map]
      congr 1
      congr 1
      · simp
      · apply List.map_congr_left
        intro a ha
        simp only [Function.comp, List.drop_drop, Prod.mk.injEq]
        have harg : B + a * B = (a + 1) * B := by
          rw [Nat.succ_mul]
          omega
        refine ⟨by omega, by rw [harg]⟩

/-- C9: the block-checksum read loop terminates exactly when the
calculator's block size is at least 1 — it then performs
`ceil(len / blockSize)` block reads plus one final EOF read, and with one
fewer read it has not yet finished — while `NewCalculator` accepts any block
size without validation, and with block size 0 every read returns zero bytes
without EOF, so no amount of fuel terminates the loop. -/
theorem C9_terminates_iff_positive_blockSize (hash : List Nat → List Nat)
    (B : Nat) (content : List Nat) :
    (NewCalculator B).blockSize = B ∧
    (B = 0 → ∀ fuel start, blockLoopF hash B fuel start content = none) ∧
    (1 ≤ B →
      (blockLoopF hash B ((content.length + B - 1) / B + 1) 0 content).isSome
          = true ∧
      ∀ fuel, fuel ≤ (content.length + B - 1) / B →
        blockLoopF hash B fuel 0 content = none) := by
  refine ⟨rfl, ?_, ?_⟩
  · rintro rfl fuel start
    exact blockLoopF_zero hash fuel start content
  · intro hB
    constructor
    · rw [blockLoopF_pos hash B hB _ content 0 (Nat.lt_succ_self _)]
      rfl
    · suffices hgen : ∀ fuel rest start, 1 ≤ B →
          fuel ≤ (List.length rest + B - 1) / B →
          blockLoopF hash B fuel start rest = none by
        intro fuel hf
        exact hgen fuel content 0 hB hf
      intro fuel
      induction fuel with
      | zero => intro rest start _ _; rfl
      | succ f ih =>
        intro rest start hB2 hf
        have hL : 1 ≤ rest.length := by
          by_contra hc
          have : rest.length = 0 := by omega
          rw [this] at hf
          rw [Nat.div_eq_of_lt (show 0 + B - 1 < B by omega)] at hf
          omega
        match rest with
        | [] => simp at hL
        | c :: t =>
          rw [blockLoopF, show (B == 0) = false by simp; omega]
          rw [if_neg (show ¬ false = true by simp)]
          rw [if_neg (show ¬ (c :: t).isEmpty = true by simp)]
          rw [ih ((c :: t).drop B) (start + 1) hB2 (by
            rw [List.length_drop]
            rw [ceil_div_succ (c :: t).length B hB2 hL] at hf
            omega)]
          rfl

/-- The block count of a non-empty file, unfolded once. -/
theorem ceil_div_eq (L B : Nat) (hB : 1 ≤ B) (hL : 1 ≤ L) :
    (L + B - 1) / B = (L - 1) / B + 1 := by
  have e1 : L + B - 1 = (L - 1) + B := by omega
  rw [e1, Nat.add_div_right _ (show 0 < B by omega)]

/-- Concatenating the chunks implied by the block indices rebuilds the
file. -/
theorem chunks_join (B : Nat) (hB : 1 ≤ B) :
    ∀ (n : Nat) (rest : List Nat), rest.length ≤ n →
      ((List.range ((rest.length + B - 1) / B)).map
        (fun i => (rest.drop (i * B)).take B)).flatten = rest := by
  intro n
  induction n with
  | zero =>
    intro rest h
    match rest with
    | [] =>
      simp [Nat.div_eq_of_lt (show 0 + B - 1 < B by omega)]
  | succ n ih =>
    intro rest h
    match rest with
    | [] =>
      simp [Nat.div_eq_of_lt (show 0 + B - 1 < B by omega)]
    | c :: t =>
      have hL : 1 ≤ (c :: t).length := by simp
      rw [ceil_div_succ _ B hB hL, List.range_succ_eq_map, List.map_cons,
        List.map_map, List.flatten_cons]
      have htail :
          (List.range ((((c :: t).length - B) + B - 1) / B)).map
            ((fun i => ((c :: t).drop (i * B)).take B) ∘ Nat.succ) =
          (List.range (((((c :: t).drop B).length) + B - 1) / B)).map
            (fun i => (((c :: t).drop B).drop (i * B)).take B) := by
        rw [List.length_drop]
        apply List.map_congr_left
        intro a ha
        simp only [Function.comp, List.drop_drop]
        rw [show a.succ * B = B + a * B from by rw [Nat.succ_mul]; omega]
      rw [htail, ih ((c :: t).drop B) (by
        rw [List.length_drop]
        simp only [List.length_cons] at h ⊢
        omega)]
      simp [List.take_append_drop]

/-- C5: for a positive block size `B`, `CalculateBlockChecksum` returns the
mapping whose keys are exactly the indices `0, 1, …, ceil(len/B) - 1`, each
bound to the digest of its chunk — every chunk of exactly `B` bytes except
the last, whose length is `len mod B` (or `B` when `B` divides `len`) — the
chunks concatenate back to the whole file, and an empty file yields an empty
mapping rather than an error. -/
theorem C5_block_checksums_cover_file (hash : List Nat → List Nat)
    (B : Nat) (content : List Nat) (hB : 1 ≤ B) :
    CalculateBlockChecksum hash (NewCalculator B) content =
      some ((List.range ((content.length + B - 1) / B)).map
        (fun i => (i, hash ((content.drop (i * B)).take B)))) ∧
    ((List.range ((content.length + B - 1) / B)).map
      (fun i => (content.drop (i * B)).take B)).flatten = content ∧
    (∀ i, i + 1 < (content.length + B - 1) / B →
      ((content.drop (i * B)).take B).length = B) ∧
    (0 < (content.length + B - 1) / B →
      ((content.drop (((content.length + B - 1) / B - 1) * B)).take B).length =
        if content.length % B = 0 then B else content.length % B) ∧
    (content = [] → (content.length + B - 1) / B = 0) := by
  refine ⟨?_, ?_, ?_, ?_, ?_⟩
  · simp only [CalculateBlockChecksum, NewCalculator]
    rw [blockLoopF_pos hash B hB (content.length + 1) content 0
      (Nat.lt_succ_of_le (ceil_div_le_self content.length B hB))]
    simp only [Nat.zero_add]
  · exact chunks_join B hB content.length content (le_refl _)
  · intro i hi
    have hL : 1 ≤ content.length := by
      by_contra hc
      have h0 : content.length = 0 := by omega
      rw [h0, Nat.div_eq_of_lt (show 0 + B - 1 < B by omega)] at hi
      omega
    rw [ceil_div_eq content.length B hB hL] at hi
    have h1 : i + 1 ≤ (content.length - 1) / B := by omega
    have h2 : (i + 1) * B ≤ ((content.length - 1) / B) * B :=
      mul_le_mul_right' h1 B
    have h3 : ((content.length - 1) / B) * B ≤ content.length - 1 :=
      Nat.div_mul_le_self _ _
    rw [Nat.add_mul, Nat.one_mul] at h2
    simp only [List.length_take, List.length_drop]
    omega
  · intro hk
    have hL : 1 ≤ content.length := by
      by_contra hc
      have h0 : content.length = 0 := by omega
      rw [h0, Nat.div_eq_of_lt (show 0 + B - 1 < B by omega)] at hk
      omega
    have hqr := Nat.div_add_mod (content.length - 1) B
    have hr : (content.length - 1) % B < B := Nat.mod_lt _ (by omega)
    have hk1 : (content.length + B - 1) / B - 1 = (content.length - 1) / B := by
      rw [ceil_div_eq content.length B hB hL]
      exact Nat.succ_sub_one _
    have hLrep : content.length =
        B * ((content.length - 1) / B) + ((content.length - 1) % B + 1) := by
      omega
    have hmod : content.length % B = ((content.length - 1) % B + 1) % B := by
      conv_lhs => rw [hLrep]
      rw [Nat.mul_add_mod]
    rw [hk1, hmod]
    simp only [List.length_take, List.length_drop]
    rw [Nat.mul_comm ((content.length - 1) / B) B]
    rcases Nat.lt_or_ge ((content.length - 1) % B + 1) B with hbe | hbe
    · rw [Nat.mod_eq_of_lt hbe]
      rw [if_neg (by omega)]
      omega
    · have hbeq : (content.length - 1) % B + 1 = B := by omega
      rw [hbeq, Nat.mod_self, if_pos rfl]
      omega
  · rintro rfl
    rw [List.length_nil, Nat.zero_add]
    exact Nat.div_eq_of_lt (by omega)

/-- C5, witness: block size 2 on the 3-byte file `[1,2,3]` with a digest
returning `[len + 100]` yields blocks `0 ↦ digest [1,2]` and
`1 ↦ digest [3]`. -/
theorem C5_block_checksums_cover_file_witness :
    (1 ≤ 2 ∧
    CalculateBlockChecksum (fun l => [l.length + 100]) (NewCalculator 2)
      [1, 2, 3] = some [(0, [102]), (1, [101])]) :=
  ⟨by decide,
    ((C5_block_checksums_cover_file (fun l => [l.length + 100]) 2 [1, 2, 3]
      (by decide)).1).trans (by decide)⟩

/-- C9, witness: with block size 2 a 3-byte file needs exactly 3 reads
(2 blocks + EOF) — 2 reads do not finish — and with block size 0 the loop is
still running after 5 reads. -/
theorem C9_terminates_iff_positive_blockSize_witness :
    (blockLoopF (fun _ => []) 2 3 0 [1, 2, 3]).isSome = true ∧
    blockLoopF (fun _ => []) 2 2 0 [1, 2, 3] = none ∧
    blockLoopF (fun _ => []) 0 5 0 [1, 2, 3] = none :=
  ⟨((C9_terminates_iff_positive_blockSize (fun _ => []) 2 [1, 2, 3]).2.2
      (by decide)).1,
    ((C9_terminates_iff_positive_blockSize (fun _ => []) 2 [1, 2, 3]).2.2
      (by decide)).2 2 (by decide),
    (C9_terminates_iff_positive_blockSize (fun _ => []) 0 [1, 2, 3]).2.1 rfl 5 0⟩

/-! ## C6: debounce coalesces a burst into one event -/

/-- Invariant of the coalescing loop during a same-path burst: with the
pending map holding the latest event of the burst so far and the timer armed
at its arrival plus the window, processing the remaining notifications (each
within the window of its predecessor) emits exactly the final event, at the
final arrival plus the window. -/
theorem runLoopF_burst (d : Nat) (p : Str) :
    ∀ (rest : List RawEvent) (fuel : Nat) (prev : RawEvent),
      2 * rest.length + 2 ≤ fuel →
      (∀ x ∈ rest, x.name = p) →
      List.Chain' (fun a b => a.time ≤ b.time ∧ b.time - a.time < d)
        (prev :: rest) →
      runLoopF d fuel rest [(p, ⟨p, prev.op, prev.time⟩)]
          (some (prev.time + d)) =
        some [((rest.getLastD prev).time + d,
          ⟨p, (rest.getLastD prev).op, (rest.getLastD prev).time⟩)] := by
  intro rest
  induction rest with
  | nil =>
    intro fuel prev hfuel hpath hchain
    match fuel, hfuel with
    | f + 1, hfuel =>
      match f, (show 1 ≤ f by omega) with
      | g + 1, _ =>
        rw [runLoopF, runLoopF]
        rfl
  | cons e rest2 ih =>
    intro fuel prev hfuel hpath hchain
    match fuel, hfuel with
    | f + 1, hfuel =>
      have hgap : prev.time ≤ e.time ∧ e.time - prev.time < d :=
        (List.chain'_cons.mp hchain).1
      rw [runLoopF]
      rw [if_neg (show ¬ prev.time + d < e.time by omega)]
      rw [hpath e (by simp)]
      rw [show upsertEvent [(p, ⟨p, prev.op, prev.time⟩)] p ⟨p, e.op, e.time⟩ =
        [(p, ⟨p, e.op, e.time⟩)] from by simp [upsertEvent]]
      rw [ih f e (by simp only [List.length_cons] at hfuel; omega)
        (fun x hx => hpath x (by simp [hx]))
        (List.chain'_cons.mp hchain).2]
      rw [List.getLastD_cons]

/-- C6: a burst of `n ≥ 1` raw notifications for the same path, each
arriving within the debounce window of its predecessor, is coalesced into
exactly one emitted event, carrying the operation kind and timestamp of the
burst's last notification, and delivered exactly at (hence no earlier than)
`debounceMs` after that last notification. -/
theorem C6_debounce_coalesces_burst (d : Nat) (p : Str) (r : RawEvent)
    (rest : List RawEvent)
    (hpath : ∀ x ∈ r :: rest, x.name = p)
    (hchain : List.Chain' (fun a b => a.time ≤ b.time ∧ b.time - a.time < d)
      (r :: rest)) :
    processEventsModel d (r :: rest) =
      some [((rest.getLastD r).time + d,
        ⟨p, (rest.getLastD r).op, (rest.getLastD r).time⟩)] := by
  rw [processEventsModel]
  rw [show 2 * (r :: rest).length + 2 = (2 * rest.length + 3) + 1 by
    simp [List.length_cons]; omega]
  rw [runLoopF]
  rw [hpath r (by simp)]
  rw [show upsertEvent [] p ⟨p, r.op, r.time⟩ = [(p, ⟨p, r.op, r.time⟩)]
    from rfl]
  exact runLoopF_burst d p rest (2 * rest.length + 3) r (by omega)
    (fun x hx => hpath x (by simp [hx])) hchain

/-- C6, witness: five same-path notifications 10 ms apart with a 100 ms
window produce the single event stamped at the last touch (40 ms), emitted
at 140 ms. -/
theorem C6_debounce_coalesces_burst_witness :
    processEventsModel 100
      [⟨"p".toList, "WRITE".toList, 0⟩, ⟨"p".toList, "WRITE".toList, 10⟩,
        ⟨"p".toList, "WRITE".toList, 20⟩, ⟨"p".toList, "CREATE".toList, 30⟩,
        ⟨"p".toList, "WRITE".toList, 40⟩] =
      some [(140, ⟨"p".toList, "WRITE".toList, 40⟩)] :=
  (C6_debounce_coalesces_burst 100 "p".toList ⟨"p".toList, "WRITE".toList, 0⟩
    [⟨"p".toList, "WRITE".toList, 10⟩, ⟨"p".toList, "WRITE".toList, 20⟩,
      ⟨"p".toList, "CREATE".toList, 30⟩, ⟨"p".toList, "WRITE".toList, 40⟩]
    (by decide)
    (by norm_num [List.chain'_cons, List.chain'_singleton])).trans (by decide)

/-! ## C10: double Close panics -/

/-- C10: `Watcher.Close` is not idempotent — after any successful `Close`,
a second `Close` panics, because it unconditionally runs `close(w.done)` on
the already-closed `done` channel. -/
theorem C10_double_close_panics (w w' : WatcherState)
    (h : WatcherClose w = .ok w') : WatcherClose w' = .error () := by
  rcases w with ⟨⟨closed⟩, fsc⟩
  cases closed <;> simp [WatcherClose, closeChan] at h
  subst h
  rfl

/-- C10, witness: closing a fresh watcher succeeds, and the resulting state
panics on a second close. -/
theorem C10_double_close_panics_witness :
    WatcherClose NewWatcherState = .ok ⟨⟨true⟩, true⟩ ∧
    WatcherClose ⟨⟨true⟩, true⟩ = .error () :=
  ⟨rfl, C10_double_close_panics NewWatcherState ⟨⟨true⟩, true⟩ rfl⟩

end Gosync
